import Mathlib

/-!
Verification development for the protobuf-lite codec: a schema-less
Protocol-Buffers wire-format decoder/encoder.  The definitions below are a
shallow embedding of the Rust sources (`src/buffer.rs`, `src/varint.rs`,
`src/fixint.rs`, `src/error.rs`, `src/protobuf.rs`).  Bytes are modelled as
natural numbers (byte values), 64-bit unsigned machine integers as natural
numbers reduced mod 2^64 where the machine would wrap, and signed machine
integers as mathematical integers in two's-complement range.  Fallible
operations return `Except`; the decode engine additionally carries a fuel
parameter (`Option` result) so that its recursion is structural — the fuel
is an artifact of the embedding, and the totality theorem shows it is never
exhausted for the fuel supplied by the top-level entry points.
-/

namespace ProtobufLite

/-- Embeds `WireType` from `protobuf.rs`: the closed enumeration of the six
protobuf wire-type codes. -/
inductive WireType where
  | VARINT
  | I64
  | LEN
  | SGROUP
  | EGROUP
  | I32
deriving DecidableEq

/-- The numeric code of a wire type (`#[repr(u8)]` discriminants 0..5). -/
def WireType.code : WireType → Nat
  | .VARINT => 0
  | .I64 => 1
  | .LEN => 2
  | .SGROUP => 3
  | .EGROUP => 4
  | .I32 => 5

/-- Embeds `DecodeError` from `error.rs`. -/
inductive DecodeError where
  | OverFlow64Bit
  | OverFlow32Bit
  | UnknownWireType (w : Nat)
  | DeprecatedWireType (w : WireType)
  | UnexpectedEof
  | EOF
  | Error
deriving DecidableEq

/-- Modelled from the spec: `EncodeError` is referenced by `protobuf.rs`
(`use crate::error::EncodeError::DataError`) but its declaration is not in
the provided sources; the spec describes a single "data error" failure kind
for wire-unrepresentable values, so it is one constructor. -/
inductive EncodeError where
  | DataError
deriving DecidableEq

/-- Embeds `Reader` from `buffer.rs`: an immutable byte buffer plus a read
position.  `remain` in the source is maintained as `len - pos`; here it is
computed. -/
structure Reader where
  data : List Nat
  pos : Nat
deriving DecidableEq

namespace Reader

/-- Embeds `Reader::new`. -/
def new (d : List Nat) : Reader := ⟨d, 0⟩

/-- Embeds `Reader::remaining` (the `remain` field invariant `len(buf) - pos`). -/
def remaining (r : Reader) : Nat := r.data.length - r.pos

/-- Embeds `Reader::is_end`. -/
def is_end (r : Reader) : Bool := r.remaining == 0

/-- Embeds `Reader::reset`: rewind position to zero. -/
def reset (r : Reader) : Reader := ⟨r.data, 0⟩

/-- Embeds `Reader::read_byte`: one byte or unexpected EOF. -/
def read_byte (r : Reader) : Except DecodeError (Nat × Reader) :=
  if r.remaining < 1 then .error .UnexpectedEof
  else .ok (r.data.getD r.pos 0, ⟨r.data, r.pos + 1⟩)

/-- Embeds `Reader::read_bytes`: exactly `n` bytes or unexpected EOF. -/
def read_bytes (r : Reader) (n : Nat) : Except DecodeError (List Nat × Reader) :=
  if r.remaining < n then .error .UnexpectedEof
  else .ok ((r.data.drop r.pos).take n, ⟨r.data, r.pos + n⟩)

/-- Embeds `Reader::read_all_bytes` = `read_bytes(remaining())`. -/
def read_all_bytes (r : Reader) : Except DecodeError (List Nat × Reader) :=
  r.read_bytes r.remaining

end Reader

/-- The loop of `read_uvarint` from `varint.rs`, expressed over the unread
byte suffix; returns the accumulated value and the number of bytes
consumed.  Each byte contributes its low 7 bits shifted by the running
`shift`; `x |= (b & 0x7F) << shift` is 64-bit arithmetic, hence the
`% 2^64`.  The source increments `shift` before testing the continuation
bit, so the overflow test compares `shift + 7` with 64. -/
def read_uvarint_core : List Nat → Nat → Nat → Except DecodeError (Nat × Nat)
  | [], _, _ => .error .UnexpectedEof
  | b :: rest, x, shift =>
    let x' := x ||| ((b &&& 0x7F) <<< shift) % 2 ^ 64
    if b &&& 0x80 = 0 then .ok (x', 1)
    else if 64 ≤ shift + 7 then .error .OverFlow64Bit
    else
      match read_uvarint_core rest x' (shift + 7) with
      | .ok (v, n) => .ok (v, n + 1)
      | .error e => .error e

/-- Embeds `read_uvarint` from `varint.rs`: fails `EOF` if the reader is already
exhausted, otherwise runs the accumulation loop on the unread suffix. -/
def read_uvarint (r : Reader) : Except DecodeError (Nat × Reader) :=
  if r.is_end then .error .EOF
  else
    match read_uvarint_core (r.data.drop r.pos) 0 0 with
    | .ok (v, n) => .ok (v, ⟨r.data, r.pos + n⟩)
    | .error e => .error e

/-- Two's-complement reinterpretation of a 64-bit unsigned value (`as i64`). -/
def toI64 (n : Nat) : Int := if n < 2 ^ 63 then (n : Int) else (n : Int) - 2 ^ 64

/-- Two's-complement reinterpretation of a 32-bit unsigned value (`as i32`). -/
def toI32 (n : Nat) : Int := if n < 2 ^ 31 then (n : Int) else (n : Int) - 2 ^ 32

/-- Embeds `read_varint` from `varint.rs`: unsigned-decode, then
`let mut x = (ux as i64) >> 1; if ux & 1 != 0 { x = !x }`.  The source's
`>>` on `i64` is an arithmetic (sign-extending) shift, i.e. flooring
division by 2, and `!x` is `-x - 1`. -/
def read_varint (r : Reader) : Except DecodeError (Int × Reader) :=
  match read_uvarint r with
  | .ok (ux, r') =>
    let x := Int.fdiv (toI64 ux) 2
    let x := if ux &&& 1 ≠ 0 then -x - 1 else x
    .ok (x, r')
  | .error e => .error e

/-- Embeds `write_uvarint` from `varint.rs`: emit `(x as u8) | 0x80` and shift
right by 7 while `x ≥ 0x80`, then emit the final byte `x as u8`. -/
def write_uvarint (x : Nat) : List Nat :=
  if 0x80 ≤ x then ((x % 256) ||| 0x80) :: write_uvarint (x >>> 7)
  else [x % 256]
termination_by x
decreasing_by
  rw [Nat.shiftRight_eq_div_pow]
  exact Nat.div_lt_self (by omega) (by norm_num)

/-- Embeds `write_varint` from `varint.rs`: zig-zag `let mut ux = (x as u64) << 1;
if x < 0 { ux = !ux; }` then unsigned-encode.  `(x as u64)` is the
two's-complement bit pattern, the shift wraps mod 2^64, and `!ux` is the
64-bit complement. -/
def write_varint (x : Int) : List Nat :=
  if x < 0 then
    write_uvarint (2 ^ 64 - 1 - ((x.emod (2 ^ 64)).toNat <<< 1) % 2 ^ 64)
  else
    write_uvarint (((x.emod (2 ^ 64)).toNat <<< 1) % 2 ^ 64)

/-- Embeds `encode_uvarint` from `varint.rs` (buffer-allocating wrapper). -/
def encode_uvarint (x : Nat) : List Nat := write_uvarint x

/-- Embeds `encode_varint` from `varint.rs` (buffer-allocating wrapper). -/
def encode_varint (x : Int) : List Nat := write_varint x

/-- Little-endian byte list of the low `k` bytes of `n`. -/
def natToLeBytes : Nat → Nat → List Nat
  | 0, _ => []
  | k + 1, n => (n % 256) :: natToLeBytes k (n / 256)

/-- Natural number denoted by a little-endian byte list. -/
def leBytesToNat : List Nat → Nat
  | [] => 0
  | b :: rest => b % 256 + 256 * leBytesToNat rest

/-- Embeds `write_fix32` from `fixint.rs`: little-endian bytes of the `i32` bit
pattern. -/
def write_fix32 (x : Int) : List Nat := natToLeBytes 4 (x.emod (2 ^ 32)).toNat

/-- Embeds `write_fix64` from `fixint.rs`. -/
def write_fix64 (x : Int) : List Nat := natToLeBytes 8 (x.emod (2 ^ 64)).toNat

/-- Embeds `read_fix32` from `fixint.rs`: read exactly 4 bytes,
`i32::from_le_bytes`. -/
def read_fix32 (r : Reader) : Except DecodeError (Int × Reader) :=
  match r.read_bytes 4 with
  | .ok (bs, r') => .ok (toI32 (leBytesToNat bs), r')
  | .error e => .error e

/-- Embeds `read_fix64` from `fixint.rs`. -/
def read_fix64 (r : Reader) : Except DecodeError (Int × Reader) :=
  match r.read_bytes 8 with
  | .ok (bs, r') => .ok (toI64 (leBytesToNat bs), r')
  | .error e => .error e

/-- Embeds `ProtoData` from `protobuf.rs`: the tagged-union value model.
`Varint` holds the raw `u64`; `Fix64`/`Fix32` hold `i64`/`i32` bit
patterns; `Str` holds the UTF-8 bytes of the Rust `String`; `Message`
holds the ordered field map (`Map<u64, ProtoData>`, a `BTreeMap`),
modelled as an association list kept sorted by ascending field number. -/
inductive ProtoData where
  | Varint (v : Nat)
  | Fix64 (v : Int)
  | Fix32 (v : Int)
  | Bytes (v : List Nat)
  | Str (v : List Nat)
  | Repeated (v : List ProtoData)
  | Message (v : List (Nat × ProtoData))

/-- Embeds `ProtoData::wire_type`. -/
def ProtoData.wire_type : ProtoData → WireType
  | .Varint _ => .VARINT
  | .Fix64 _ => .I64
  | .Fix32 _ => .I32
  | _ => .LEN

/-- Embeds `std::mem::discriminant`, as the constructor index. -/
def ProtoData.discr : ProtoData → Nat
  | .Varint _ => 0
  | .Fix64 _ => 1
  | .Fix32 _ => 2
  | .Bytes _ => 3
  | .Str _ => 4
  | .Repeated _ => 5
  | .Message _ => 6

/-- Embeds `matches!(*i, ProtoData::Repeated(_))`. -/
def ProtoData.is_repeated : ProtoData → Bool
  | .Repeated _ => true
  | _ => false

/-- Embeds `BTreeMap::get` on the sorted association list. -/
def mapLookup : List (Nat × ProtoData) → Nat → Option ProtoData
  | [], _ => none
  | (k', v') :: rest, k => if k = k' then some v' else mapLookup rest k

/-- Embeds `BTreeMap::insert`: insert or replace, keeping keys in ascending
order. -/
def mapInsert : List (Nat × ProtoData) → Nat → ProtoData → List (Nat × ProtoData)
  | [], k, v => [(k, v)]
  | (k', v') :: rest, k, v =>
    if k < k' then (k, v) :: (k', v') :: rest
    else if k = k' then (k, v) :: rest
    else (k', v') :: mapInsert rest k v

/-- The repeated-field accumulation step of `decode_protobuf_from`
(`match parsed_data.entry(field)`): a vacant entry stores the bare value;
an occupied entry holding a `Repeated` list pushes onto it; any other
occupied entry is replaced by a two-element `Repeated` list. -/
def accumulate (m : List (Nat × ProtoData)) (field : Nat) (data : ProtoData) :
    List (Nat × ProtoData) :=
  match mapLookup m field with
  | some (ProtoData.Repeated list) => mapInsert m field (.Repeated (list ++ [data]))
  | some existing => mapInsert m field (.Repeated [existing, data])
  | none => mapInsert m field data

/-- Modelled from the spec: `str::from_utf8` (Rust standard library, not
part of this repository's sources) succeeds exactly on RFC 3629 valid
UTF-8 — well-formed sequences, no overlong forms, no surrogates, maximum
code point U+10FFFF. -/
def validUtf8 : List Nat → Bool
  | [] => true
  | b :: rest =>
    if b < 0x80 then validUtf8 rest
    else if b < 0xC2 then false
    else if b < 0xE0 then
      match rest with
      | c1 :: rest' => 0x80 ≤ c1 && c1 < 0xC0 && validUtf8 rest'
      | [] => false
    else if b < 0xF0 then
      match rest with
      | c1 :: c2 :: rest' =>
        let lo1 := if b = 0xE0 then 0xA0 else 0x80
        let hi1 := if b = 0xED then 0xA0 else 0xC0
        lo1 ≤ c1 && c1 < hi1 && 0x80 ≤ c2 && c2 < 0xC0 && validUtf8 rest'
      | _ => false
    else if b < 0xF5 then
      match rest with
      | c1 :: c2 :: c3 :: rest' =>
        let lo1 := if b = 0xF0 then 0x90 else 0x80
        let hi1 := if b = 0xF4 then 0x90 else 0xC0
        lo1 ≤ c1 && c1 < hi1 && 0x80 ≤ c2 && c2 < 0xC0 && 0x80 ≤ c3 &&
          c3 < 0xC0 && validUtf8 rest'
      | _ => false
    else false

/-- Embeds `WireType::try_from` on `u64` (`TryFrom` impl in `protobuf.rs`). -/
def WireType.tryFrom (wire_type : Nat) : Except DecodeError WireType :=
  match wire_type with
  | 0 => .ok .VARINT
  | 1 => .ok .I64
  | 2 => .ok .LEN
  | 3 => .ok .SGROUP
  | 4 => .ok .EGROUP
  | 5 => .ok .I32
  | _ => .error (.UnknownWireType wire_type)

/-- Embeds `read_tag` from `protobuf.rs`: one varint, split as
`(tag >> 3, WireType::try_from(tag & 0x07))`. -/
def read_tag (r : Reader) : Except DecodeError ((Nat × WireType) × Reader) :=
  match read_uvarint r with
  | .error e => .error e
  | .ok (tag, r') =>
    match WireType.tryFrom (tag &&& 0x07) with
    | .error e => .error e
    | .ok wt => .ok ((tag >>> 3, wt), r')

/-- The two fallback tiers of `read_length_delimited`, reached when the
nested-message attempt breaks out of its loop (after `result.clear()` and
`data_buf.reset()`): validate the whole sub-view as UTF-8 and classify as
`Str`, else clear, reset and classify the raw bytes as `Bytes`. -/
def lenFallbackTiers (data_buf : Reader) (result : List ProtoData) :
    Except DecodeError (List ProtoData) :=
  match data_buf.read_all_bytes with
  | .error e => .error e
  | .ok (bytes, db1) =>
    if validUtf8 bytes then .ok (result ++ [.Str bytes])
    else
      match (Reader.reset db1).read_all_bytes with
      | .error e => .error e
      | .ok (bytes2, _) => .ok (([] : List ProtoData) ++ [.Bytes bytes2])

mutual

/-- The decode loop of `decode_protobuf_from` from `protobuf.rs`: read a
tag (a clean `EOF` ends the message), dispatch on the wire type (every
payload-read failure is wrapped as `DecodeError::Error`; the deprecated
group wire types fail), and accumulate into the field map.  The fuel
argument makes the recursion structural; `none` means fuel ran out. -/
def decodeLoop : Nat → Reader → List (Nat × ProtoData) →
    Option (Except DecodeError (ProtoData × Reader))
  | 0, _, _ => none
  | fuel + 1, buf, parsed_data =>
    match read_tag buf with
    | .error e =>
      match e with
      | .EOF => some (.ok (.Message parsed_data, buf))
      | _ => some (.error e)
    | .ok ((field, wire_type), buf1) =>
      match wire_type with
      | .VARINT =>
        match read_uvarint buf1 with
        | .error _ => some (.error .Error)
        | .ok (v, buf2) => decodeLoop fuel buf2 (accumulate parsed_data field (.Varint v))
      | .I64 =>
        match read_fix64 buf1 with
        | .error _ => some (.error .Error)
        | .ok (v, buf2) => decodeLoop fuel buf2 (accumulate parsed_data field (.Fix64 v))
      | .I32 =>
        match read_fix32 buf1 with
        | .error _ => some (.error .Error)
        | .ok (v, buf2) => decodeLoop fuel buf2 (accumulate parsed_data field (.Fix32 v))
      | .LEN =>
        match read_length_delimited fuel buf1 with
        | none => none
        | some (.error _) => some (.error .Error)
        | some (.ok (list, buf2)) =>
          match list with
          | [] => some (.error .Error)
          | [d] => decodeLoop fuel buf2 (accumulate parsed_data field d)
          | _ => decodeLoop fuel buf2 (accumulate parsed_data field (.Repeated list))
      | x => some (.error (.DeprecatedWireType x))
termination_by structural fuel => fuel

/-- Embeds `read_length_delimited` from `protobuf.rs`: read the length varint
`len`; `len == 0` short-circuits to an empty `Message`; otherwise take
exactly `len` bytes as an independent sub-view and run the disambiguation
tiers on it. -/
def read_length_delimited : Nat → Reader →
    Option (Except DecodeError (List ProtoData × Reader))
  | 0, _ => none
  | fuel + 1, buf =>
    match read_uvarint buf with
    | .error e => some (.error e)
    | .ok (len, buf1) =>
      if len = 0 then some (.ok ([ProtoData.Message []], buf1))
      else
        match buf1.read_bytes len with
        | .error e => some (.error e)
        | .ok (bytes, buf2) =>
          match lenTierLoop fuel (Reader.new bytes) [] with
          | none => none
          | some (.error e) => some (.error e)
          | some (.ok result) => some (.ok (result, buf2))
termination_by structural fuel => fuel

/-- The `loop { match decode_protobuf_from(&mut data_buf) ... }` of
`read_length_delimited`: accept a successful non-empty nested message; a
successful empty (or non-`Message`) result re-enters the loop; an `EOF`
error returns the accumulated result; any other error clears the result,
resets the sub-view and falls through to the UTF-8/bytes tiers. -/
def lenTierLoop : Nat → Reader → List ProtoData →
    Option (Except DecodeError (List ProtoData))
  | 0, _, _ => none
  | fuel + 1, data_buf, result =>
    match decodeLoop fuel data_buf [] with
    | none => none
    | some (.ok (v, data_buf')) =>
      match v with
      | .Message msg =>
        if 0 < msg.length then some (.ok (result ++ [.Message msg]))
        else lenTierLoop fuel data_buf' result
      | _ => lenTierLoop fuel data_buf' result
    | some (.error e) =>
      match e with
      | .EOF => some (.ok result)
      | _ => some (lenFallbackTiers (Reader.reset data_buf) [])
termination_by structural fuel => fuel

end

/-- Embeds `decode_protobuf_from` from `protobuf.rs`, at a given fuel: run the
decode loop with an empty field map. -/
def decode_protobuf_from (fuel : Nat) (r : Reader) :
    Option (Except DecodeError (ProtoData × Reader)) :=
  decodeLoop fuel r []

/-- Embeds `decode_protobuf` from `protobuf.rs`: decode a whole byte sequence
through a fresh reader.  The fuel `2 * length + 1` is supplied by the
embedding; the totality theorem shows it is always sufficient. -/
def decode_protobuf (data : List Nat) : Option (Except DecodeError ProtoData) :=
  (decode_protobuf_from (2 * data.length + 1) (Reader.new data)).map
    (Except.map Prod.fst)

/-- The wire tag written by the encoder: `(field << 3) | wire_type_code`
in 64-bit arithmetic (`field << 3` wraps mod 2^64). -/
def tagValue (field : Nat) (code : Nat) : Nat := ((field <<< 3) % 2 ^ 64) ||| code

mutual

/-- Embeds `ProtoData::encode_to` from `protobuf.rs`.  Scalars: tag then payload.
`Bytes`/`Str`: tag, length varint, payload.  `Message`: delegate to the
field map's own encoding (no tag of its own).  `Repeated`: empty writes
nothing; otherwise a shared packed tag is written up front unless the
first element's wire type is `LEN`, and the elements are then encoded by
the discriminant-checked loop.  The shared tag is
`(field << 3) | (self.wire_type() as u64)` where `self` is the `Repeated`
value itself, whose wire type is always `LEN`. -/
def ProtoData.encode_to : ProtoData → Nat → Except EncodeError (List Nat)
  | .Varint v, field => .ok (write_uvarint (tagValue field 0) ++ write_uvarint v)
  | .Fix64 v, field => .ok (write_uvarint (tagValue field 1) ++ write_fix64 v)
  | .Fix32 v, field => .ok (write_uvarint (tagValue field 5) ++ write_fix32 v)
  | .Bytes v, field =>
    .ok (write_uvarint (tagValue field 2) ++ write_uvarint v.length ++ v)
  | .Str v, field =>
    .ok (write_uvarint (tagValue field 2) ++ write_uvarint v.length ++ v)
  | .Repeated v, field =>
    match v with
    | [] => .ok []
    | v0 :: _ =>
      let pre :=
        match v0.wire_type with
        | .LEN => []
        | _ => write_uvarint (tagValue field (ProtoData.wire_type (.Repeated v)).code)
      match encodeElems v field none with
      | .error e => .error e
      | .ok bs => .ok (pre ++ bs)
  | .Message v, _ => mapEncodeTo v

/-- The element loop in `ProtoData::encode_to`'s `Repeated` arm: track the
discriminant of the first element (`typ`), fail `DataError` on a mismatch
or on a nested `Repeated`, else append each element's
`encode_repeated_to` output. -/
def encodeElems : List ProtoData → Nat → Option Nat → Except EncodeError (List Nat)
  | [], _, _ => .ok []
  | i :: rest, field, typ =>
    let disc := ProtoData.discr i
    match typ with
    | some existing =>
      if existing ≠ disc then .error .DataError
      else if i.is_repeated then .error .DataError
      else
        match i.encode_repeated_to field with
        | .error e => .error e
        | .ok b =>
          match encodeElems rest field (some disc) with
          | .error e => .error e
          | .ok bs => .ok (b ++ bs)
    | none =>
      if i.is_repeated then .error .DataError
      else
        match i.encode_repeated_to field with
        | .error e => .error e
        | .ok b =>
          match encodeElems rest field (some disc) with
          | .error e => .error e
          | .ok bs => .ok (b ++ bs)

/-- Embeds `ProtoData::encode_repeated_to` from `protobuf.rs`: scalars write their
bare payload (packed); `Bytes`/`Str` write their own tag, length varint
and payload; a nested `Repeated` writes nothing; a `Message` writes its
field map's encoding with no tag and no length varint. -/
def ProtoData.encode_repeated_to : ProtoData → Nat → Except EncodeError (List Nat)
  | .Varint v, _ => .ok (write_uvarint v)
  | .Fix64 v, _ => .ok (write_fix64 v)
  | .Fix32 v, _ => .ok (write_fix32 v)
  | .Bytes v, field =>
    .ok (write_uvarint (tagValue field 2) ++ write_uvarint v.length ++ v)
  | .Str v, field =>
    .ok (write_uvarint (tagValue field 2) ++ write_uvarint v.length ++ v)
  | .Repeated _, _ => .ok []
  | .Message v, _ => mapEncodeTo v

/-- Embeds `Map::encode_to` from `protobuf.rs`: encode the entries in ascending
field-number order (the `BTreeMap` iteration order; the association list
is kept sorted), each through `ProtoData::encode_to`. -/
def mapEncodeTo : List (Nat × ProtoData) → Except EncodeError (List Nat)
  | [] => .ok []
  | (key, value) :: rest =>
    match value.encode_to key with
    | .error e => .error e
    | .ok b =>
      match mapEncodeTo rest with
      | .error e => .error e
      | .ok bs => .ok (b ++ bs)

end

/-- Embeds `Map::encode` from `protobuf.rs`. -/
def mapEncode (m : List (Nat × ProtoData)) : Except EncodeError (List Nat) :=
  mapEncodeTo m

/-! ### Bit-arithmetic helpers -/

theorem lor_shift_eq_add {acc : Nat} (y shift : Nat) (h : acc < 2 ^ shift) :
    acc ||| (y <<< shift) = 2 ^ shift * y + acc := by
  rw [Nat.shiftLeft_eq, Nat.mul_comm y (2 ^ shift), Nat.lor_comm]
  exact (Nat.mul_add_lt_is_or h y).symm

theorem byte_and_127 (b : Nat) : ((b % 256) ||| 128) &&& 127 = b % 128 := by
  apply Nat.eq_of_testBit_eq
  intro i
  have h127 : (127 : Nat) = 2 ^ 7 - 1 := by norm_num
  have h128 : (128 : Nat) = 2 ^ 7 := by norm_num
  have h256 : (256 : Nat) = 2 ^ 8 := by norm_num
  rw [h127, h128, h256]
  simp only [Nat.testBit_and, Nat.testBit_lor, Nat.testBit_mod_two_pow,
    Nat.testBit_two_pow_sub_one, Nat.testBit_two_pow]
  by_cases hi : i < 7
  · have : ¬ (7 = i) := by omega
    have : (7 = i) = False := by simp [this]
    simp [hi, this, show i < 8 by omega]
  · simp [hi]

theorem byte_and_128 (b : Nat) : ((b % 256) ||| 128) &&& 128 = 128 := by
  apply Nat.eq_of_testBit_eq
  intro i
  have h128 : (128 : Nat) = 2 ^ 7 := by norm_num
  rw [h128]
  simp only [Nat.testBit_and, Nat.testBit_lor, Nat.testBit_two_pow]
  by_cases hi : 7 = i
  · subst hi; simp
  · simp [hi]

theorem small_and_127 {b : Nat} (h : b < 128) : b &&& 127 = b := by
  have h127 : (127 : Nat) = 2 ^ 7 - 1 := by norm_num
  rw [h127]
  exact Nat.and_pow_two_sub_one_of_lt_two_pow (by norm_num at h ⊢; omega)

theorem small_and_128 {b : Nat} (h : b < 128) : b &&& 128 = 0 := by
  have h128 : (128 : Nat) = 2 ^ 7 := by norm_num
  rw [h128, Nat.and_two_pow, Nat.testBit_lt_two_pow (by norm_num at h ⊢; omega)]
  simp

/-! ### Unsigned varint: encoded form and round trip -/

theorem write_uvarint_ne_nil (x : Nat) : write_uvarint x ≠ [] := by
  rw [write_uvarint]
  split <;> simp

/-- Round trip of the unsigned varint codec at an arbitrary accumulator
state, with arbitrary trailing bytes left unconsumed. -/
theorem read_uvarint_core_write {x : Nat} (rest : List Nat) (acc shift : Nat)
    (hx : x < 2 ^ (64 - shift)) (hacc : acc < 2 ^ shift) (hs : shift ≤ 63) :
    read_uvarint_core (write_uvarint x ++ rest) acc shift =
      .ok (2 ^ shift * x + acc, (write_uvarint x).length) := by
  induction x using Nat.strong_induction_on generalizing acc shift with
  | _ x ih =>
    rw [write_uvarint]
    by_cases hbig : 0x80 ≤ x
    · rw [if_pos hbig]
      have hshift7 : shift + 7 < 64 := by
        have h2 : (2 : Nat) ^ 7 ≤ x := by norm_num at hbig ⊢; omega
        have := Nat.lt_of_le_of_lt h2 hx
        have := (@Nat.pow_lt_pow_iff_right 2 _ _ (by norm_num)).mp this
        omega
      simp only [List.cons_append, read_uvarint_core, List.append_eq]
      rw [byte_and_127, byte_and_128]
      have hmodsmall : (x % 128) <<< shift % 2 ^ 64 = (x % 128) <<< shift := by
        apply Nat.mod_eq_of_lt
        rw [Nat.shiftLeft_eq]
        calc x % 128 * 2 ^ shift < 2 ^ 7 * 2 ^ shift := by
              have h1 : x % 128 < 2 ^ 7 := by norm_num [Nat.mod_lt]
              exact (Nat.mul_lt_mul_right (Nat.pos_pow_of_pos _ (by norm_num))).mpr h1
          _ = 2 ^ (shift + 7) := by rw [← Nat.pow_add]; ring_nf
          _ ≤ 2 ^ 64 := Nat.pow_le_pow_right (by norm_num) (by omega)
      rw [hmodsmall]
      rw [if_neg (by norm_num), if_neg (by omega)]
      have hacc' : acc ||| (x % 128) <<< shift < 2 ^ (shift + 7) := by
        rw [lor_shift_eq_add _ _ hacc]
        have h1 : x % 128 ≤ 127 := by omega
        calc 2 ^ shift * (x % 128) + acc < 2 ^ shift * (x % 128) + 2 ^ shift :=
              Nat.add_lt_add_left hacc _
          _ = 2 ^ shift * (x % 128 + 1) := by ring
          _ ≤ 2 ^ shift * 2 ^ 7 := Nat.mul_le_mul_left _ (by omega)
          _ = 2 ^ (shift + 7) := by rw [← Nat.pow_add]
      have hxdiv : x >>> 7 < 2 ^ (64 - (shift + 7)) := by
        rw [Nat.shiftRight_eq_div_pow]
        rw [Nat.div_lt_iff_lt_mul (by norm_num : 0 < 2 ^ 7)]
        calc x < 2 ^ (64 - shift) := hx
          _ = 2 ^ (64 - (shift + 7)) * 2 ^ 7 := by rw [← Nat.pow_add]; congr 1; omega
      have hlt : x >>> 7 < x := by
        rw [Nat.shiftRight_eq_div_pow]
        exact Nat.div_lt_self (by omega) (by norm_num)
      have hval : (2 : Nat) ^ (shift + 7) * (x >>> 7) + (acc ||| (x % 128) <<< shift)
          = 2 ^ shift * x + acc := by
        rw [lor_shift_eq_add _ _ hacc, Nat.shiftRight_eq_div_pow,
          show (2 : Nat) ^ 7 = 128 from rfl]
        conv_rhs => rw [← Nat.div_add_mod x 128]
        ring
      rw [ih (x >>> 7) hlt _ _ hxdiv hacc' (by omega), hval]
      simp
    · rw [if_neg hbig]
      have hxlt : x < 128 := by norm_num at hbig; omega
      have hx256 : x % 256 = x := Nat.mod_eq_of_lt (by omega)
      simp only [List.cons_append, read_uvarint_core, hx256]
      rw [small_and_127 hxlt, small_and_128 hxlt]
      have hsmall : x <<< shift % 2 ^ 64 = x <<< shift := by
        apply Nat.mod_eq_of_lt
        rw [Nat.shiftLeft_eq]
        calc x * 2 ^ shift < 2 ^ (64 - shift) * 2 ^ shift :=
              (Nat.mul_lt_mul_right (Nat.pos_pow_of_pos _ (by norm_num))).mpr hx
          _ = 2 ^ 64 := by rw [← Nat.pow_add]; congr 1; omega
      rw [hsmall, if_pos rfl, lor_shift_eq_add _ _ hacc]
      simp

/-- The unsigned varint encoding of a value below `2 ^ (7 * k)` takes at
most `k` bytes. -/
theorem write_uvarint_length {x k : Nat} (hk : 0 < k) (hx : x < 2 ^ (7 * k)) :
    (write_uvarint x).length ≤ k := by
  induction k generalizing x with
  | zero => omega
  | succ k ih =>
    rw [write_uvarint]
    by_cases hbig : 0x80 ≤ x
    · rw [if_pos hbig]
      have hk0 : 0 < k := by
        by_contra h
        have hk : k = 0 := by omega
        subst hk
        have hx' : x < 128 := by norm_num at hx; omega
        omega
      have : x >>> 7 < 2 ^ (7 * k) := by
        rw [Nat.shiftRight_eq_div_pow]
        rw [Nat.div_lt_iff_lt_mul (by norm_num : 0 < 2 ^ 7)]
        calc x < 2 ^ (7 * (k + 1)) := hx
          _ = 2 ^ (7 * k) * 2 ^ 7 := by
              rw [show 7 * (k + 1) = 7 * k + 7 by ring, Nat.pow_add]
      have h2 := ih hk0 this
      simp only [List.length_cons]
      omega
    · rw [if_neg hbig]
      simp

/-- Top-level unsigned round trip, with arbitrary trailing bytes. -/
theorem read_uvarint_write {x : Nat} (hx : x < 2 ^ 64) (rest : List Nat) :
    read_uvarint (Reader.new (write_uvarint x ++ rest)) =
      .ok (x, ⟨write_uvarint x ++ rest, (write_uvarint x).length⟩) := by
  have hne := write_uvarint_ne_nil x
  rw [read_uvarint]
  rw [if_neg]
  · rw [show (Reader.new (write_uvarint x ++ rest)).data.drop
        (Reader.new (write_uvarint x ++ rest)).pos = write_uvarint x ++ rest from rfl]
    rw [read_uvarint_core_write rest 0 0 (by simpa using hx) (by norm_num) (by norm_num)]
    simp [Reader.new]
  · simp [Reader.is_end, Reader.remaining, Reader.new]
    cases hw : write_uvarint x with
    | nil => exact absurd hw hne
    | cons a l => simp

/-! ### Consumption lemmas for the reader primitives -/

theorem read_uvarint_core_consumes {l : List Nat} {x shift v n : Nat}
    (h : read_uvarint_core l x shift = .ok (v, n)) : 1 ≤ n ∧ n ≤ l.length := by
  induction l generalizing x shift v n with
  | nil => simp [read_uvarint_core] at h
  | cons b rest ih =>
    rw [read_uvarint_core] at h
    by_cases h1 : b &&& 128 = 0
    · rw [if_pos h1] at h
      obtain ⟨hv, hn⟩ := by simpa using h
      simp [← hn]
    · rw [if_neg h1] at h
      by_cases h2 : 64 ≤ shift + 7
      · rw [if_pos h2] at h; simp at h
      · rw [if_neg h2] at h
        cases hrec : read_uvarint_core rest (x ||| (b &&& 127) <<< shift % 2 ^ 64)
            (shift + 7) with
        | ok p =>
          obtain ⟨v', n'⟩ := p
          rw [hrec] at h
          obtain ⟨hv, hn⟩ := by simpa using h
          have := ih hrec
          simp [← hn]
          omega
        | error e => rw [hrec] at h; simp at h

theorem read_uvarint_core_no_eof {l : List Nat} {x shift : Nat} :
    read_uvarint_core l x shift ≠ .error .EOF := by
  induction l generalizing x shift with
  | nil => simp [read_uvarint_core]
  | cons b rest ih =>
    rw [read_uvarint_core]
    by_cases h1 : b &&& 128 = 0
    · rw [if_pos h1]; simp
    · rw [if_neg h1]
      by_cases h2 : 64 ≤ shift + 7
      · rw [if_pos h2]; simp
      · rw [if_neg h2]
        cases hrec : read_uvarint_core rest (x ||| (b &&& 127) <<< shift % 2 ^ 64)
            (shift + 7) with
        | ok p => simp
        | error e =>
          intro hcontra
          have : e = .EOF := by
            obtain h := by simpa using hcontra
            exact h
          subst this
          exact ih hrec

theorem read_uvarint_consumes {r r' : Reader} {v : Nat}
    (h : read_uvarint r = .ok (v, r')) :
    r'.data = r.data ∧ r.pos < r'.pos ∧ r'.pos ≤ r.data.length ∧
      r'.remaining < r.remaining := by
  rw [read_uvarint] at h
  by_cases he : r.is_end
  · rw [if_pos he] at h; simp at h
  · rw [if_neg he] at h
    cases hc : read_uvarint_core (r.data.drop r.pos) 0 0 with
    | ok p =>
      obtain ⟨v', n⟩ := p
      rw [hc] at h
      obtain ⟨hv, hr⟩ := by simpa using h
      obtain ⟨h1, h2⟩ := read_uvarint_core_consumes hc
      have hrem : ¬ r.remaining = 0 := by
        simpa [Reader.is_end] using he
      have hlen : (r.data.drop r.pos).length = r.data.length - r.pos := by simp
      rw [hlen] at h2
      have hremdef : r.remaining = r.data.length - r.pos := rfl
      subst hr
      refine ⟨rfl, ?_, ?_, ?_⟩
      · show r.pos < r.pos + n
        omega
      · show r.pos + n ≤ r.data.length
        omega
      · show r.data.length - (r.pos + n) < r.remaining
        omega
    | error e => rw [hc] at h; simp at h

theorem read_uvarint_eof {r : Reader} (h : read_uvarint r = .error .EOF) :
    r.remaining = 0 := by
  rw [read_uvarint] at h
  by_cases he : r.is_end
  · simpa [Reader.is_end] using he
  · rw [if_neg he] at h
    cases hc : read_uvarint_core (r.data.drop r.pos) 0 0 with
    | ok p => rw [hc] at h; simp at h
    | error e =>
      rw [hc] at h
      have : e = .EOF := by simpa using h
      subst this
      exact absurd hc read_uvarint_core_no_eof

theorem read_bytes_ok {r r' : Reader} {n : Nat} {bs : List Nat}
    (h : r.read_bytes n = .ok (bs, r')) :
    r'.data = r.data ∧ r'.pos = r.pos + n ∧ n ≤ r.remaining ∧
      bs.length = n ∧ r'.remaining = r.remaining - n := by
  rw [Reader.read_bytes] at h
  by_cases hn : r.remaining < n
  · rw [if_pos hn] at h; simp at h
  · rw [if_neg hn] at h
    obtain ⟨hbs, hr⟩ := by simpa using h
    subst hr
    have hlen : bs.length = n := by
      rw [← hbs]
      simp [Reader.remaining] at hn ⊢
      omega
    refine ⟨rfl, rfl, by omega, hlen, ?_⟩
    simp [Reader.remaining]
    omega

theorem read_tag_consumes {r r' : Reader} {f : Nat} {wt : WireType}
    (h : read_tag r = .ok ((f, wt), r')) :
    r'.data = r.data ∧ r'.remaining < r.remaining := by
  rw [read_tag] at h
  cases hu : read_uvarint r with
  | ok p =>
    obtain ⟨tag, r''⟩ := p
    rw [hu] at h
    dsimp only at h
    cases hw : WireType.tryFrom (tag &&& 7) with
    | ok wt' =>
      rw [hw] at h
      obtain ⟨h1, h2⟩ := by simpa using h
      obtain ⟨hd, _, _, hrem⟩ := read_uvarint_consumes hu
      rcases h2 with rfl
      exact ⟨hd, hrem⟩
    | error e => rw [hw] at h; simp at h
  | error e => rw [hu] at h; simp at h

theorem tryFrom_no_eof (w : Nat) : WireType.tryFrom w ≠ .error .EOF := by
  rcases w with _ | _ | _ | _ | _ | _ | n <;> simp [WireType.tryFrom]

theorem read_tag_eof {r : Reader} (h : read_tag r = .error .EOF) :
    r.remaining = 0 := by
  rw [read_tag] at h
  cases hu : read_uvarint r with
  | ok p =>
    obtain ⟨tag, r''⟩ := p
    rw [hu] at h
    dsimp only at h
    cases hw : WireType.tryFrom (tag &&& 7) with
    | ok wt' => rw [hw] at h; simp at h
    | error e =>
      rw [hw] at h
      have he : e = .EOF := by simpa using h
      subst he
      exact absurd hw (tryFrom_no_eof _)
  | error e =>
    rw [hu] at h
    have he : e = .EOF := by simpa using h
    subst he
    exact read_uvarint_eof hu

theorem read_fix32_consumes {r r' : Reader} {v : Int}
    (h : read_fix32 r = .ok (v, r')) :
    r'.data = r.data ∧ r'.remaining < r.remaining := by
  rw [read_fix32] at h
  cases hb : r.read_bytes 4 with
  | ok p =>
    obtain ⟨bs, r''⟩ := p
    rw [hb] at h
    obtain ⟨h1, h2⟩ := by simpa using h
    rcases h2 with rfl
    obtain ⟨hd, _, hle, _, hrem⟩ := read_bytes_ok hb
    exact ⟨hd, by omega⟩
  | error e => rw [hb] at h; simp at h

theorem read_fix64_consumes {r r' : Reader} {v : Int}
    (h : read_fix64 r = .ok (v, r')) :
    r'.data = r.data ∧ r'.remaining < r.remaining := by
  rw [read_fix64] at h
  cases hb : r.read_bytes 8 with
  | ok p =>
    obtain ⟨bs, r''⟩ := p
    rw [hb] at h
    obtain ⟨h1, h2⟩ := by simpa using h
    rcases h2 with rfl
    obtain ⟨hd, _, hle, _, hrem⟩ := read_bytes_ok hb
    exact ⟨hd, by omega⟩
  | error e => rw [hb] at h; simp at h

/-! ### Field-map lemmas -/

theorem mapInsert_length_ge (m : List (Nat × ProtoData)) (k : Nat) (v : ProtoData) :
    m.length ≤ (mapInsert m k v).length := by
  induction m with
  | nil => simp [mapInsert]
  | cons p rest ih =>
    obtain ⟨k', v'⟩ := p
    rw [mapInsert]
    by_cases h1 : k < k'
    · rw [if_pos h1]; simp
    · rw [if_neg h1]
      by_cases h2 : k = k'
      · rw [if_pos h2]; simp
      · rw [if_neg h2]; simpa using ih

theorem mapLookup_insert (m : List (Nat × ProtoData)) (k : Nat) (v : ProtoData) :
    mapLookup (mapInsert m k v) k = some v := by
  induction m with
  | nil => simp [mapInsert, mapLookup]
  | cons p rest ih =>
    obtain ⟨k', v'⟩ := p
    rw [mapInsert]
    by_cases h1 : k < k'
    · rw [if_pos h1, mapLookup, if_pos rfl]
    · rw [if_neg h1]
      by_cases h2 : k = k'
      · rw [if_pos h2, mapLookup, if_pos rfl]
      · rw [if_neg h2, mapLookup, if_neg h2]
        exact ih

theorem accumulate_length_ge (m : List (Nat × ProtoData)) (f : Nat) (d : ProtoData) :
    m.length ≤ (accumulate m f d).length := by
  rw [accumulate]
  rcases mapLookup m f with _ | v
  · exact mapInsert_length_ge m f d
  · cases v <;> exact mapInsert_length_ge m f _

theorem accumulate_nil (f : Nat) (d : ProtoData) : accumulate [] f d = [(f, d)] := rfl

/-! ### Structural facts about the decode loop -/

/-- A successful decode loop always yields a `Message`, whose field map is
at least as large as the accumulator it started from. -/
theorem decodeLoop_ok_message {fuel : Nat} {r r' : Reader}
    {m : List (Nat × ProtoData)} {v : ProtoData}
    (h : decodeLoop fuel r m = some (.ok (v, r'))) :
    ∃ msg, v = .Message msg ∧ m.length ≤ msg.length := by
  induction fuel generalizing r r' m v with
  | zero => simp [decodeLoop] at h
  | succ fuel ih =>
    rw [decodeLoop] at h
    cases htag : read_tag r with
    | error e =>
      rw [htag] at h
      cases e <;> simp at h
      case EOF =>
        obtain ⟨hv, _⟩ := h
        exact ⟨m, hv.symm, le_refl _⟩
    | ok p =>
      obtain ⟨⟨field, wt⟩, buf1⟩ := p
      rw [htag] at h
      dsimp only at h
      cases wt with
      | VARINT =>
        cases hu : read_uvarint buf1 with
        | error e => rw [hu] at h; simp at h
        | ok q =>
          obtain ⟨w, buf2⟩ := q
          rw [hu] at h
          obtain ⟨msg, hv, hlen⟩ := ih h
          exact ⟨msg, hv, le_trans (accumulate_length_ge m field _) hlen⟩
      | I64 =>
        cases hu : read_fix64 buf1 with
        | error e => rw [hu] at h; simp at h
        | ok q =>
          obtain ⟨w, buf2⟩ := q
          rw [hu] at h
          obtain ⟨msg, hv, hlen⟩ := ih h
          exact ⟨msg, hv, le_trans (accumulate_length_ge m field _) hlen⟩
      | I32 =>
        cases hu : read_fix32 buf1 with
        | error e => rw [hu] at h; simp at h
        | ok q =>
          obtain ⟨w, buf2⟩ := q
          rw [hu] at h
          obtain ⟨msg, hv, hlen⟩ := ih h
          exact ⟨msg, hv, le_trans (accumulate_length_ge m field _) hlen⟩
      | LEN =>
        cases hld : read_length_delimited fuel buf1 with
        | none => rw [hld] at h; simp at h
        | some x =>
          rw [hld] at h
          cases x with
          | error e => simp at h
          | ok q =>
            obtain ⟨list, buf2⟩ := q
            dsimp only at h
            match list with
            | [] => simp at h
            | [d] =>
              obtain ⟨msg, hv, hlen⟩ := ih h
              exact ⟨msg, hv, le_trans (accumulate_length_ge m field _) hlen⟩
            | d1 :: d2 :: rest =>
              obtain ⟨msg, hv, hlen⟩ := ih h
              exact ⟨msg, hv, le_trans (accumulate_length_ge m field _) hlen⟩
      | SGROUP => simp at h
      | EGROUP => simp at h

/-- Starting the decode loop with an empty accumulator on a reader with
bytes remaining: success implies a non-empty field map. -/
theorem decodeLoop_nonempty {fuel : Nat} {r r' : Reader} {v : ProtoData}
    (hpos : 0 < r.remaining) (h : decodeLoop fuel r [] = some (.ok (v, r'))) :
    ∃ msg, v = .Message msg ∧ msg ≠ [] := by
  cases fuel with
  | zero => simp [decodeLoop] at h
  | succ fuel =>
    rw [decodeLoop] at h
    cases htag : read_tag r with
    | error e =>
      rw [htag] at h
      cases e <;> simp at h
      case EOF =>
        have := read_tag_eof htag
        omega
    | ok p =>
      obtain ⟨⟨field, wt⟩, buf1⟩ := p
      rw [htag] at h
      dsimp only at h
      have hacc : ∀ d, (accumulate [] field d).length = 1 := by
        intro d; rw [accumulate_nil]; rfl
      cases wt with
      | VARINT =>
        cases hu : read_uvarint buf1 with
        | error e => rw [hu] at h; simp at h
        | ok q =>
          obtain ⟨w, buf2⟩ := q
          rw [hu] at h
          obtain ⟨msg, hv, hlen⟩ := decodeLoop_ok_message h
          rw [hacc] at hlen
          exact ⟨msg, hv, by cases msg <;> simp_all⟩
      | I64 =>
        cases hu : read_fix64 buf1 with
        | error e => rw [hu] at h; simp at h
        | ok q =>
          obtain ⟨w, buf2⟩ := q
          rw [hu] at h
          obtain ⟨msg, hv, hlen⟩ := decodeLoop_ok_message h
          rw [hacc] at hlen
          exact ⟨msg, hv, by cases msg <;> simp_all⟩
      | I32 =>
        cases hu : read_fix32 buf1 with
        | error e => rw [hu] at h; simp at h
        | ok q =>
          obtain ⟨w, buf2⟩ := q
          rw [hu] at h
          obtain ⟨msg, hv, hlen⟩ := decodeLoop_ok_message h
          rw [hacc] at hlen
          exact ⟨msg, hv, by cases msg <;> simp_all⟩
      | LEN =>
        cases hld : read_length_delimited fuel buf1 with
        | none => rw [hld] at h; simp at h
        | some x =>
          rw [hld] at h
          cases x with
          | error e => simp at h
          | ok q =>
            obtain ⟨list, buf2⟩ := q
            dsimp only at h
            match list with
            | [] => simp at h
            | [d] =>
              obtain ⟨msg, hv, hlen⟩ := decodeLoop_ok_message h
              rw [hacc] at hlen
              exact ⟨msg, hv, by cases msg <;> simp_all⟩
            | d1 :: d2 :: rest =>
              obtain ⟨msg, hv, hlen⟩ := decodeLoop_ok_message h
              rw [hacc] at hlen
              exact ⟨msg, hv, by cases msg <;> simp_all⟩
      | SGROUP => simp at h
      | EGROUP => simp at h

/-- A successful length-delimited read strictly consumes outer bytes (at
least the length varint). -/
theorem read_length_delimited_consumes {fuel : Nat} {r r' : Reader}
    {l : List ProtoData}
    (h : read_length_delimited fuel r = some (.ok (l, r'))) :
    r'.data = r.data ∧ r'.remaining < r.remaining := by
  cases fuel with
  | zero => simp [read_length_delimited] at h
  | succ fuel =>
    rw [read_length_delimited] at h
    cases hu : read_uvarint r with
    | error e => rw [hu] at h; simp at h
    | ok p =>
      obtain ⟨len, r1⟩ := p
      rw [hu] at h
      dsimp only at h
      obtain ⟨hd1, _, _, hrem1⟩ := read_uvarint_consumes hu
      by_cases hlen : len = 0
      · rw [if_pos hlen] at h
        obtain ⟨_, hr⟩ := by simpa using h
        subst hr
        exact ⟨hd1, hrem1⟩
      · rw [if_neg hlen] at h
        cases hb : r1.read_bytes len with
        | error e => rw [hb] at h; simp at h
        | ok q =>
          obtain ⟨bytes, r2⟩ := q
          rw [hb] at h
          dsimp only at h
          obtain ⟨hd2, _, hle, _, hrem2⟩ := read_bytes_ok hb
          cases ht : lenTierLoop fuel (Reader.new bytes) [] with
          | none => rw [ht] at h; simp at h
          | some x =>
            rw [ht] at h
            cases x with
            | error e => simp at h
            | ok result =>
              obtain ⟨_, hr⟩ := by simpa using h
              subst hr
              exact ⟨by rw [hd2, hd1], by omega⟩

/-! ### Totality of the decode engine -/

/-- The decode engine never exhausts its fuel when the fuel dominates the
remaining input: the disambiguation tier loop, the length-delimited
reader and the decode loop all produce a result.  The `2 *` slack absorbs
the fuel decrements along a `decode → length-delimited → tier → decode`
descent, during which at least two bytes (tag and length varint) are
consumed per nesting level. -/
theorem decode_totality (fuel : Nat) :
    (∀ db res, 2 * db.remaining + 2 ≤ fuel → 0 < db.remaining →
      (lenTierLoop fuel db res).isSome = true)
    ∧ (∀ r, 2 * r.remaining < fuel →
      (read_length_delimited fuel r).isSome = true)
    ∧ (∀ r m, 2 * r.remaining < fuel →
      (decodeLoop fuel r m).isSome = true) := by
  induction fuel with
  | zero =>
    refine ⟨fun db res h1 h2 => by omega, fun r h1 => by omega, fun r m h1 => by omega⟩
  | succ fuel ih =>
    obtain ⟨ihT, ihL, ihD⟩ := ih
    refine ⟨?_, ?_, ?_⟩
    · intro db res hf hpos
      rw [lenTierLoop]
      have hd : 2 * db.remaining < fuel := by omega
      have hsome := ihD db [] hd
      cases hdec : decodeLoop fuel db [] with
      | none => rw [hdec] at hsome; simp at hsome
      | some x =>
        cases x with
        | ok p =>
          obtain ⟨v, db'⟩ := p
          obtain ⟨msg, hv, hne⟩ := decodeLoop_nonempty hpos hdec
          subst hv
          dsimp only
          rw [if_pos (List.length_pos.mpr hne)]
          simp
        | error e => cases e <;> simp
    · intro r hf
      rw [read_length_delimited]
      cases hu : read_uvarint r with
      | error e => simp
      | ok p =>
        obtain ⟨len, r1⟩ := p
        dsimp only
        by_cases hlen : len = 0
        · rw [if_pos hlen]; simp
        · rw [if_neg hlen]
          cases hb : r1.read_bytes len with
          | error e => simp
          | ok q =>
            obtain ⟨bytes, r2⟩ := q
            dsimp only
            obtain ⟨_, _, _, hrem1⟩ := read_uvarint_consumes hu
            obtain ⟨_, _, hlenle, hbl, _⟩ := read_bytes_ok hb
            have hnewrem : (Reader.new bytes).remaining = len := by
              simp [Reader.new, Reader.remaining, hbl]
            have h1 : 2 * (Reader.new bytes).remaining + 2 ≤ fuel := by
              rw [hnewrem]; omega
            have h2 : 0 < (Reader.new bytes).remaining := by
              rw [hnewrem]; omega
            have hsome := ihT (Reader.new bytes) [] h1 h2
            cases ht : lenTierLoop fuel (Reader.new bytes) [] with
            | none => rw [ht] at hsome; simp at hsome
            | some x =>
              cases x with
              | ok result => simp
              | error e => simp
    · intro r m hf
      rw [decodeLoop]
      cases htag : read_tag r with
      | error e => cases e <;> simp
      | ok p =>
        obtain ⟨⟨field, wt⟩, buf1⟩ := p
        obtain ⟨_, hrem1⟩ := read_tag_consumes htag
        dsimp only
        cases wt with
        | VARINT =>
          cases hu : read_uvarint buf1 with
          | error e => simp
          | ok q =>
            obtain ⟨v, buf2⟩ := q
            obtain ⟨_, _, _, hrem2⟩ := read_uvarint_consumes hu
            exact ihD buf2 _ (by omega)
        | I64 =>
          cases hu : read_fix64 buf1 with
          | error e => simp
          | ok q =>
            obtain ⟨v, buf2⟩ := q
            obtain ⟨_, hrem2⟩ := read_fix64_consumes hu
            exact ihD buf2 _ (by omega)
        | I32 =>
          cases hu : read_fix32 buf1 with
          | error e => simp
          | ok q =>
            obtain ⟨v, buf2⟩ := q
            obtain ⟨_, hrem2⟩ := read_fix32_consumes hu
            exact ihD buf2 _ (by omega)
        | LEN =>
          have hL : 2 * buf1.remaining < fuel := by omega
          have hsome := ihL buf1 hL
          cases hld : read_length_delimited fuel buf1 with
          | none => rw [hld] at hsome; simp at hsome
          | some x =>
            cases x with
            | error e => simp
            | ok q =>
              obtain ⟨list, buf2⟩ := q
              obtain ⟨_, hrem2⟩ := read_length_delimited_consumes hld
              dsimp only
              match list with
              | [] => simp
              | [d] => exact ihD buf2 _ (by omega)
              | d1 :: d2 :: rest => exact ihD buf2 _ (by omega)
        | SGROUP => simp
        | EGROUP => simp

/-! ### Tag arithmetic -/

theorem tagValue_eq {f code : Nat} (hf : f < 2 ^ 61) (hc : code < 8) :
    tagValue f code = 8 * f + code := by
  rw [tagValue, Nat.shiftLeft_eq]
  have h1 : f * 2 ^ 3 < 2 ^ 64 := by
    have : f * 2 ^ 3 < 2 ^ 61 * 2 ^ 3 :=
      (Nat.mul_lt_mul_right (by norm_num)).mpr hf
    calc f * 2 ^ 3 < 2 ^ 61 * 2 ^ 3 := this
      _ = 2 ^ 64 := by norm_num
  rw [Nat.mod_eq_of_lt h1]
  have h2 := @Nat.mul_add_lt_is_or 3 code (by norm_num at hc ⊢; omega) f
  rw [Nat.mul_comm f (2 ^ 3), ← h2]

theorem tagValue_lt {f code : Nat} (hf : f < 2 ^ 61) (hc : code < 8) :
    tagValue f code < 2 ^ 64 := by
  rw [tagValue_eq hf hc]
  omega

theorem tag_shift_field {f code : Nat} (hc : code < 8) :
    (8 * f + code) >>> 3 = f := by
  rw [Nat.shiftRight_eq_div_pow]
  show (8 * f + code) / 8 = f
  omega

theorem tag_and_code {f code : Nat} (hc : code < 8) :
    (8 * f + code) &&& 7 = code := by
  have h7 : (7 : Nat) = 2 ^ 3 - 1 := by norm_num
  rw [h7, Nat.and_pow_two_sub_one_eq_mod]
  show (8 * f + code) % 8 = code
  omega

/-! ### Claim C1: every decode call runs to completion -/

/-- C1.  For every finite input byte sequence, `decode_protobuf` (which
runs `decode_protobuf_from` at the fuel supplied by the embedding) returns
a result — a value or an error — rather than exhausting its fuel: the
recursion of the decode engine, including the recursive LEN
disambiguation in `read_length_delimited`, always terminates. -/
theorem decode_protobuf_total (data : List Nat) :
    (decode_protobuf data).isSome = true := by
  rw [decode_protobuf, decode_protobuf_from]
  have h := (decode_totality (2 * data.length + 1)).2.2 (Reader.new data) []
    (by show 2 * (data.length - 0) < 2 * data.length + 1; omega)
  cases hd : decodeLoop (2 * data.length + 1) (Reader.new data) [] with
  | none => rw [hd] at h; simp at h
  | some x => simp

/-! ### Claim C9: unsigned varint round trip and length bound -/

/-- C9.  For every unsigned 64-bit integer `x`, `read_uvarint` over a
fresh `Reader` on `encode_uvarint x` returns `x`, and the encoding takes
at most 10 bytes. -/
theorem read_uvarint_encode_uvarint {x : Nat} (hx : x < 2 ^ 64) :
    (∃ r', read_uvarint (Reader.new (encode_uvarint x)) = .ok (x, r'))
    ∧ (encode_uvarint x).length ≤ 10 := by
  constructor
  · refine ⟨⟨encode_uvarint x, (encode_uvarint x).length⟩, ?_⟩
    have := read_uvarint_write hx []
    simpa [encode_uvarint] using this
  · exact write_uvarint_length (by norm_num)
      (lt_of_lt_of_le hx (Nat.pow_le_pow_right (by norm_num) (by norm_num)))

/-- Witness for C9 at `x = 300`. -/
theorem read_uvarint_encode_uvarint_witness :
    (300 : Nat) < 2 ^ 64 ∧
      ((∃ r', read_uvarint (Reader.new (encode_uvarint 300)) = .ok (300, r'))
        ∧ (encode_uvarint 300).length ≤ 10) :=
  ⟨by norm_num, read_uvarint_encode_uvarint (by norm_num)⟩

/-! ### Claim C10: tag round trip for primitive values -/

/-- The five value variants whose encoding starts with a tag written by
`encode_to` itself: `Varint`, `Fix64`, `Fix32`, `Bytes`, `Str`. -/
def ProtoData.is_scalar_or_blob : ProtoData → Bool
  | .Repeated _ => false
  | .Message _ => false
  | _ => true

/-- C10.  For every field number below `2^61` and every `Varint`,
`Fix64`, `Fix32`, `Bytes` or `Str` value, `read_tag` over a fresh reader
on the bytes of `encode_to` returns exactly the field number and the
value's wire type.  The bound on the field number keeps
`(field << 3) | code` — computed mod `2^64` — faithful. -/
theorem read_tag_encode_to {f : Nat} {v : ProtoData} {bs : List Nat}
    (hf : f < 2 ^ 61) (hv : v.is_scalar_or_blob = true)
    (henc : v.encode_to f = .ok bs) :
    ∃ r', read_tag (Reader.new bs) = .ok ((f, v.wire_type), r') := by
  have main : ∀ (code : Nat) (wt : WireType) (payload : List Nat),
      code < 8 → WireType.tryFrom code = .ok wt →
      bs = write_uvarint (tagValue f code) ++ payload →
      ∃ r', read_tag (Reader.new bs) = .ok ((f, wt), r') := by
    intro code wt payload hc htf hbs
    refine ⟨⟨bs, (write_uvarint (tagValue f code)).length⟩, ?_⟩
    rw [read_tag, hbs, read_uvarint_write (tagValue_lt hf hc) payload,
      tagValue_eq hf hc]
    dsimp only
    rw [tag_and_code hc, htf]
    dsimp only
    rw [tag_shift_field hc]
  cases v with
  | Varint w =>
    simp only [ProtoData.encode_to] at henc
    exact main 0 .VARINT (write_uvarint w) (by norm_num) rfl (by simpa using henc.symm)
  | Fix64 w =>
    simp only [ProtoData.encode_to] at henc
    exact main 1 .I64 (write_fix64 w) (by norm_num) rfl (by simpa using henc.symm)
  | Fix32 w =>
    simp only [ProtoData.encode_to] at henc
    exact main 5 .I32 (write_fix32 w) (by norm_num) rfl (by simpa using henc.symm)
  | Bytes w =>
    simp only [ProtoData.encode_to] at henc
    exact main 2 .LEN (write_uvarint w.length ++ w) (by norm_num) rfl
      (by simpa using henc.symm)
  | Str w =>
    simp only [ProtoData.encode_to] at henc
    exact main 2 .LEN (write_uvarint w.length ++ w) (by norm_num) rfl
      (by simpa using henc.symm)
  | Repeated w => simp [ProtoData.is_scalar_or_blob] at hv
  | Message w => simp [ProtoData.is_scalar_or_blob] at hv

/-- Witness for C10 at field `1` and value `Varint 150` (wire bytes
`08 96 01`). -/
theorem read_tag_encode_to_witness :
    (1 : Nat) < 2 ^ 61 ∧ (ProtoData.Varint 150).is_scalar_or_blob = true ∧
      (ProtoData.Varint 150).encode_to 1 = .ok [8, 150, 1] ∧
      ∃ r', read_tag (Reader.new [8, 150, 1]) =
        .ok ((1, (ProtoData.Varint 150).wire_type), r') := by
  have henc : (ProtoData.Varint 150).encode_to 1 = .ok [8, 150, 1] := by
    simp [ProtoData.encode_to, tagValue, write_uvarint]
  exact ⟨by norm_num, rfl, henc, read_tag_encode_to (by norm_num) rfl henc⟩

/-! ### Claim C3: the signed varint decoder mis-reads large magnitudes -/

/-- C3 (code bug).  `read_varint` computes `(ux as i64) >> 1` — a cast
followed by an arithmetic shift — instead of the zig-zag decode
`(ux >> 1) ^ -(ux & 1)` (logical shift, then cast).  The two differ
whenever the zig-zag value has its top bit set, so the signed round trip
fails for `x = 2^62`: `encode_varint (2^62)` produces the zig-zag varint
of `2^63`, and `read_varint` returns `-(2^62)` instead of `2^62`. -/
theorem read_varint_encode_varint_pow62 :
    encode_varint (2 ^ 62) = [128, 128, 128, 128, 128, 128, 128, 128, 128, 1]
    ∧ read_varint (Reader.new [128, 128, 128, 128, 128, 128, 128, 128, 128, 1]) =
      .ok (-(2 ^ 62), ⟨[128, 128, 128, 128, 128, 128, 128, 128, 128, 1], 10⟩)
    ∧ -(2 ^ 62 : Int) ≠ 2 ^ 62 := by
  refine ⟨?_, ?_, by norm_num⟩
  · rw [encode_varint, write_varint, if_neg (by norm_num),
      show (((2 ^ 62 : Int).emod (2 ^ 64)).toNat <<< 1) % 2 ^ 64 = 2 ^ 63 from by decide]
    rw [write_uvarint, write_uvarint, write_uvarint, write_uvarint, write_uvarint,
      write_uvarint, write_uvarint, write_uvarint, write_uvarint, write_uvarint]
    simp
  · rfl

/-! ### Claim C5: overflow detection in `read_uvarint` -/

/-- Counterexample to C5 as stated: a 10th byte that terminates the
sequence but carries value bits that would overflow the 64-bit
accumulator (here `0x02`, contributing `2 <<< 63`) is *not* rejected with
`OverFlow64Bit`; the overflowing bits are silently discarded and the
read succeeds with value `0`. -/
theorem read_uvarint_tenth_byte_truncates :
    read_uvarint (Reader.new [128, 128, 128, 128, 128, 128, 128, 128, 128, 2]) =
      .ok (0, ⟨[128, 128, 128, 128, 128, 128, 128, 128, 128, 2], 10⟩) := by
  rfl

/-- C5 (amended).  `read_uvarint` fails with `OverFlow64Bit` exactly when
the shift reaches 64 with the continuation bit still set: whenever the
first ten bytes of the stream all carry the continuation bit, the error
is raised at the tenth byte.  A tenth byte that terminates the sequence
is instead accepted, its value bits contributing `(b &&& 0x7F) <<< 63`
reduced mod `2^64` — overflowing bits are silently discarded rather than
reported. -/
theorem read_uvarint_overflow_behavior :
    (∀ b1 b2 b3 b4 b5 b6 b7 b8 b9 b10 : Nat, ∀ rest : List Nat,
      b1 &&& 0x80 ≠ 0 → b2 &&& 0x80 ≠ 0 → b3 &&& 0x80 ≠ 0 → b4 &&& 0x80 ≠ 0 →
      b5 &&& 0x80 ≠ 0 → b6 &&& 0x80 ≠ 0 → b7 &&& 0x80 ≠ 0 → b8 &&& 0x80 ≠ 0 →
      b9 &&& 0x80 ≠ 0 → b10 &&& 0x80 ≠ 0 →
      read_uvarint (Reader.new
        ([b1, b2, b3, b4, b5, b6, b7, b8, b9, b10] ++ rest)) =
        .error .OverFlow64Bit)
    ∧ (∀ b : Nat, ∀ rest : List Nat, b &&& 0x80 = 0 →
      read_uvarint (Reader.new
        ([128, 128, 128, 128, 128, 128, 128, 128, 128, b] ++ rest)) =
        .ok ((b &&& 0x7F) <<< 63 % 2 ^ 64,
          ⟨[128, 128, 128, 128, 128, 128, 128, 128, 128, b] ++ rest, 10⟩)) := by
  constructor
  · intro b1 b2 b3 b4 b5 b6 b7 b8 b9 b10 rest h1 h2 h3 h4 h5 h6 h7 h8 h9 h10
    rw [read_uvarint]
    rw [if_neg (by simp [Reader.is_end, Reader.remaining, Reader.new])]
    simp only [Reader.new, List.drop_zero, List.cons_append, read_uvarint_core,
      h1, h2, h3, h4, h5, h6, h7, h8, h9, h10, if_false, if_neg]
    norm_num
  · intro b rest hb
    rw [read_uvarint]
    rw [if_neg (by simp [Reader.is_end, Reader.remaining, Reader.new])]
    have h0 : (128 : Nat) &&& 127 = 0 := by decide
    have h0' : (128 : Nat) &&& 128 = 128 := by decide
    simp only [Reader.new, List.drop_zero, List.cons_append, read_uvarint_core,
      hb, h0, h0']
    simp

/-- Witness for the amended C5: eleven continuation bytes overflow, and
the truncating acceptance at tenth byte `0x02` yields value `0`. -/
theorem read_uvarint_overflow_behavior_witness :
    read_uvarint (Reader.new
        ([128, 128, 128, 128, 128, 128, 128, 128, 128, 128] ++ [128])) =
      .error .OverFlow64Bit
    ∧ read_uvarint (Reader.new
        ([128, 128, 128, 128, 128, 128, 128, 128, 128, 2] ++ [])) =
      .ok ((2 &&& 0x7F) <<< 63 % 2 ^ 64,
        ⟨[128, 128, 128, 128, 128, 128, 128, 128, 128, 2] ++ [], 10⟩) :=
  ⟨read_uvarint_overflow_behavior.1 128 128 128 128 128 128 128 128 128 128 [128]
      (by decide) (by decide) (by decide) (by decide) (by decide) (by decide)
      (by decide) (by decide) (by decide) (by decide),
    read_uvarint_overflow_behavior.2 2 [] (by decide)⟩

/-! ### Claim C2: nested-message priority in LEN disambiguation -/

/-- The first tier of the disambiguation loop accepts a successful
non-empty nested parse; success over a non-empty sub-view is never
empty. -/
theorem lenTierLoop_message {fuel : Nat} {db : Reader}
    {msg : List (Nat × ProtoData)} {r_end : Reader} (res : List ProtoData)
    (hpos : 0 < db.remaining)
    (h : decodeLoop fuel db [] = some (.ok (.Message msg, r_end))) :
    msg ≠ [] ∧
      lenTierLoop (fuel + 1) db res = some (.ok (res ++ [ProtoData.Message msg])) := by
  obtain ⟨msg', hmsg', hne⟩ := decodeLoop_nonempty hpos h
  have hmm : msg = msg' := by
    cases hmsg'
    rfl
  subst hmm
  refine ⟨hne, ?_⟩
  rw [lenTierLoop, h]
  dsimp only
  rw [if_pos (List.length_pos.mpr hne)]

/-- C2.  A LEN payload of `L > 0` bytes on which the recursively invoked
decode engine succeeds is classified as `Message` — never as `Str` or
`Bytes` — and such a successful parse always has at least one entry, so a
successful-but-empty parse never arises for a non-empty payload (the
empty-parse caveat is vacuous there).  Stated both for the tier loop on
the sub-view and for `read_length_delimited` end to end. -/
theorem len_disambiguation_message_priority :
    (∀ (fuel : Nat) (db : Reader) (res : List ProtoData)
      (msg : List (Nat × ProtoData)) (r_end : Reader),
      0 < db.remaining →
      decode_protobuf_from fuel db = some (.ok (.Message msg, r_end)) →
      msg ≠ [] ∧
        lenTierLoop (fuel + 1) db res = some (.ok (res ++ [ProtoData.Message msg])))
    ∧ (∀ (fuel : Nat) (r r1 r2 r_end : Reader) (len : Nat) (bytes : List Nat)
      (msg : List (Nat × ProtoData)),
      read_uvarint r = .ok (len, r1) → len ≠ 0 →
      r1.read_bytes len = .ok (bytes, r2) →
      decode_protobuf_from fuel (Reader.new bytes) = some (.ok (.Message msg, r_end)) →
      msg ≠ [] →
      read_length_delimited (fuel + 2) r =
        some (.ok ([ProtoData.Message msg], r2))) := by
  constructor
  · intro fuel db res msg r_end hpos h
    rw [decode_protobuf_from] at h
    exact lenTierLoop_message res hpos h
  · intro fuel r r1 r2 r_end len bytes msg hu hlen hb hdec hne
    rw [decode_protobuf_from] at hdec
    rw [read_length_delimited, hu]
    dsimp only
    rw [if_neg hlen, hb]
    dsimp only
    have hpos : 0 < (Reader.new bytes).remaining := by
      obtain ⟨_, _, _, hbl, _⟩ := read_bytes_ok hb
      show 0 < bytes.length - 0
      omega
    obtain ⟨_, ht⟩ := lenTierLoop_message [] hpos hdec
    rw [ht]
    simp

/-- Witness for C2: the two-byte payload `08 01` decodes as the nested
message `{1: Varint 1}` and wins the disambiguation (it is also valid
UTF-8, being two ASCII control bytes). -/
theorem len_disambiguation_message_priority_witness :
    (0 < (Reader.new [8, 1]).remaining
      ∧ decode_protobuf_from 3 (Reader.new [8, 1]) =
          some (.ok (.Message [(1, .Varint 1)], ⟨[8, 1], 2⟩))
      ∧ [(1, ProtoData.Varint 1)] ≠ []
      ∧ lenTierLoop 4 (Reader.new [8, 1]) [] =
          some (.ok ([] ++ [ProtoData.Message [(1, .Varint 1)]])))
    ∧ (read_uvarint (Reader.new [2, 8, 1]) = .ok (2, ⟨[2, 8, 1], 1⟩)
      ∧ (2 : Nat) ≠ 0
      ∧ (Reader.mk [2, 8, 1] 1).read_bytes 2 = .ok ([8, 1], ⟨[2, 8, 1], 3⟩)
      ∧ read_length_delimited 5 (Reader.new [2, 8, 1]) =
          some (.ok ([ProtoData.Message [(1, .Varint 1)]], ⟨[2, 8, 1], 3⟩))) := by
  have h1 := len_disambiguation_message_priority.1 3 (Reader.new [8, 1]) []
    [(1, .Varint 1)] ⟨[8, 1], 2⟩ (by decide) (by rfl)
  have h2 := len_disambiguation_message_priority.2 3 (Reader.new [2, 8, 1])
    ⟨[2, 8, 1], 1⟩ ⟨[2, 8, 1], 3⟩ ⟨[8, 1], 2⟩ 2 [8, 1] [(1, .Varint 1)]
    (by rfl) (by decide) (by rfl) (by rfl) (by simp)
  exact ⟨⟨by decide, by rfl, h1.1, h1.2⟩, ⟨by rfl, by decide, by rfl, h2⟩⟩

/-! ### Claim C6: zero-length LEN payloads decode to an empty message -/

/-- C6.  A field tagged LEN whose length varint is `0` short-circuits to
an empty `Message` — not a failure and not a loop: the result is produced
immediately at any fuel, and the end-to-end decode of `12 00` (field 2,
LEN, length 0) yields `{2: Message {}}`. -/
theorem len_zero_decodes_empty_message :
    (∀ (fuel : Nat) (r r1 : Reader), read_uvarint r = .ok (0, r1) →
      read_length_delimited (fuel + 1) r = some (.ok ([ProtoData.Message []], r1)))
    ∧ decode_protobuf [0x12, 0x00] = some (.ok (.Message [(2, .Message [])])) := by
  constructor
  · intro fuel r r1 hu
    rw [read_length_delimited, hu]
    dsimp only
    rw [if_pos rfl]
  · rfl

/-- Witness for C6 on a reader holding the single byte `00`. -/
theorem len_zero_decodes_empty_message_witness :
    read_uvarint (Reader.new [0]) = .ok (0, ⟨[0], 1⟩)
    ∧ read_length_delimited 1 (Reader.new [0]) =
        some (.ok ([ProtoData.Message []], ⟨[0], 1⟩)) :=
  ⟨by rfl, len_zero_decodes_empty_message.1 0 (Reader.new [0]) ⟨[0], 1⟩ (by rfl)⟩

/-! ### Claim C7: repeated-field accumulation -/

/-- C7.  Three or more occurrences of one field number coalesce into a
single flat `Repeated` list in arrival order: the first occurrence is
stored bare, the second replaces it with `Repeated [previous, new]`, each
later occurrence is appended in place without re-wrapping, and the
end-to-end decode of three varint occurrences of field 4 yields
`{4: Repeated [a, b, c]}`. -/
theorem repeated_field_accumulation :
    (∀ (m : List (Nat × ProtoData)) (f : Nat) (a b c : ProtoData),
      mapLookup m f = none → a.is_repeated = false →
      mapLookup (accumulate (accumulate (accumulate m f a) f b) f c) f =
        some (.Repeated [a, b, c]))
    ∧ (∀ (m : List (Nat × ProtoData)) (f : Nat) (l : List ProtoData) (d : ProtoData),
      mapLookup m f = some (.Repeated l) →
      mapLookup (accumulate m f d) f = some (.Repeated (l ++ [d])))
    ∧ decode_protobuf [0x20, 5, 0x20, 6, 0x20, 7] =
        some (.ok (.Message [(4, .Repeated [.Varint 5, .Varint 6, .Varint 7])])) := by
  refine ⟨?_, ?_, by rfl⟩
  · intro m f a b c hnone hnr
    have h1 : accumulate m f a = mapInsert m f a := by rw [accumulate, hnone]
    have h2 : accumulate (mapInsert m f a) f b =
        mapInsert (mapInsert m f a) f (.Repeated [a, b]) := by
      rw [accumulate, mapLookup_insert]
      cases a <;> first
        | rfl
        | exact absurd hnr (by simp [ProtoData.is_repeated])
    have h3 : accumulate (mapInsert (mapInsert m f a) f (.Repeated [a, b])) f c =
        mapInsert (mapInsert (mapInsert m f a) f (.Repeated [a, b])) f
          (.Repeated ([a, b] ++ [c])) := by
      rw [accumulate, mapLookup_insert]
    rw [h1, h2, h3, show [a, b] ++ [c] = [a, b, c] from rfl, mapLookup_insert]
  · intro m f l d hrep
    rw [accumulate, hrep, mapLookup_insert]

/-- Witness for C7 with scalar values `Varint 5, 6, 7` on field 4. -/
theorem repeated_field_accumulation_witness :
    (mapLookup [] 4 = none ∧ (ProtoData.Varint 5).is_repeated = false ∧
      mapLookup (accumulate (accumulate (accumulate [] 4 (.Varint 5)) 4 (.Varint 6))
          4 (.Varint 7)) 4 =
        some (.Repeated [.Varint 5, .Varint 6, .Varint 7]))
    ∧ (mapLookup [(4, ProtoData.Repeated [.Varint 5, .Varint 6])] 4 =
        some (.Repeated [.Varint 5, .Varint 6]) ∧
      mapLookup (accumulate [(4, ProtoData.Repeated [.Varint 5, .Varint 6])] 4
          (.Varint 7)) 4 =
        some (.Repeated ([.Varint 5, .Varint 6] ++ [.Varint 7]))) :=
  ⟨⟨rfl, rfl, repeated_field_accumulation.1 [] 4 (.Varint 5) (.Varint 6) (.Varint 7)
      rfl rfl⟩,
    ⟨rfl, repeated_field_accumulation.2.1 [(4, .Repeated [.Varint 5, .Varint 6])] 4
      [.Varint 5, .Varint 6] (.Varint 7) rfl⟩⟩

/-! ### Claim C8: encode invariants for `Repeated` values -/

/-- If the element loop succeeds with the discriminant tracker already
set, every element matches that discriminant and none is `Repeated`. -/
theorem encodeElems_some_ok {l : List ProtoData} {field t : Nat} {out : List Nat}
    (h : encodeElems l field (some t) = .ok out) :
    ∀ b ∈ l, b.discr = t ∧ b.is_repeated = false := by
  induction l generalizing t out with
  | nil => intro b hb; simp at hb
  | cons i rest ih =>
    rw [encodeElems] at h
    by_cases h1 : t ≠ i.discr
    · rw [if_pos h1] at h; simp at h
    · rw [if_neg h1] at h
      push_neg at h1
      by_cases h2 : i.is_repeated = true
      · rw [if_pos h2] at h; simp at h
      · rw [if_neg h2] at h
        have h2' : i.is_repeated = false := by
          revert h2; cases i.is_repeated <;> simp
        cases he : i.encode_repeated_to field with
        | error e => rw [he] at h; simp at h
        | ok b0 =>
          rw [he] at h
          cases hr : encodeElems rest field (some i.discr) with
          | error e => rw [hr] at h; simp at h
          | ok bs =>
            intro b hb
            rcases List.mem_cons.mp hb with rfl | hb'
            · exact ⟨h1.symm, h2'⟩
            · obtain ⟨hd, hrep⟩ := ih hr b hb'
              exact ⟨by rw [hd, h1], hrep⟩

/-- If the element loop succeeds from a fresh discriminant tracker, the
head is not `Repeated` and every later element matches the head's
discriminant and is not `Repeated` either. -/
theorem encodeElems_cons_ok {i : ProtoData} {rest : List ProtoData} {field : Nat}
    {out : List Nat} (h : encodeElems (i :: rest) field none = .ok out) :
    i.is_repeated = false ∧ ∀ b ∈ rest, b.discr = i.discr ∧ b.is_repeated = false := by
  rw [encodeElems] at h
  by_cases h2 : i.is_repeated = true
  · rw [if_pos h2] at h; simp at h
  · rw [if_neg h2] at h
    have h2' : i.is_repeated = false := by
      revert h2; cases i.is_repeated <;> simp
    cases he : i.encode_repeated_to field with
    | error e => rw [he] at h; simp at h
    | ok b0 =>
      rw [he] at h
      cases hr : encodeElems rest field (some i.discr) with
      | error e => rw [hr] at h; simp at h
      | ok bs => exact ⟨h2', fun b hb => encodeElems_some_ok hr b hb⟩

/-- Evaluating the `Repeated` arm of `encode_to` once the element loop's
result is known. -/
theorem encode_to_repeated_error {a : ProtoData} {rest : List ProtoData}
    {field : Nat} {e : EncodeError}
    (hres : encodeElems (a :: rest) field none = .error e) :
    ProtoData.encode_to (.Repeated (a :: rest)) field = .error e := by
  simp only [ProtoData.encode_to]
  rw [hres]

/-- C8.  Encoding a `Repeated` fails with the data error when any
element's variant differs from the first element's variant, and when any
element is itself `Repeated`; encoding an empty `Repeated` succeeds and
writes zero bytes. -/
theorem encode_repeated_invariants :
    (∀ (field : Nat) (a : ProtoData) (rest : List ProtoData),
      (∃ b ∈ rest, b.discr ≠ a.discr) →
      ProtoData.encode_to (.Repeated (a :: rest)) field = .error .DataError)
    ∧ (∀ (field : Nat) (v : List ProtoData),
      (∃ b ∈ v, b.is_repeated = true) →
      ProtoData.encode_to (.Repeated v) field = .error .DataError)
    ∧ (∀ field : Nat, ProtoData.encode_to (.Repeated []) field = .ok []) := by
  refine ⟨?_, ?_, fun field => by simp [ProtoData.encode_to]⟩
  · intro field a rest ⟨b, hbmem, hbne⟩
    cases hres : encodeElems (a :: rest) field none with
    | ok out =>
      obtain ⟨_, hall⟩ := encodeElems_cons_ok hres
      exact absurd ((hall b hbmem).1) hbne
    | error e =>
      cases e
      exact encode_to_repeated_error hres
  · intro field v ⟨b, hbmem, hbrep⟩
    cases v with
    | nil => simp at hbmem
    | cons a rest =>
      cases hres : encodeElems (a :: rest) field none with
      | ok out =>
        obtain ⟨hhead, hall⟩ := encodeElems_cons_ok hres
        rcases List.mem_cons.mp hbmem with rfl | hb'
        · rw [hhead] at hbrep; simp at hbrep
        · rw [(hall b hb').2] at hbrep; simp at hbrep
      | error e =>
        cases e
        exact encode_to_repeated_error hres

/-- Witness for C8: a `Varint`/`Str` mix fails, a nested `Repeated`
fails, and an empty `Repeated` for field 9 writes nothing. -/
theorem encode_repeated_invariants_witness :
    ((∃ b ∈ [ProtoData.Str [120]], b.discr ≠ (ProtoData.Varint 1).discr) ∧
      ProtoData.encode_to (.Repeated [.Varint 1, .Str [120]]) 9 = .error .DataError)
    ∧ ((∃ b ∈ [ProtoData.Repeated []], b.is_repeated = true) ∧
      ProtoData.encode_to (.Repeated [.Repeated []]) 9 = .error .DataError)
    ∧ ProtoData.encode_to (.Repeated []) 9 = .ok [] := by
  have h1 : ∃ b ∈ [ProtoData.Str [120]], b.discr ≠ (ProtoData.Varint 1).discr :=
    ⟨.Str [120], by simp, by simp [ProtoData.discr]⟩
  have h2 : ∃ b ∈ [ProtoData.Repeated []], b.is_repeated = true :=
    ⟨.Repeated [], by simp, rfl⟩
  exact ⟨⟨h1, encode_repeated_invariants.1 9 (.Varint 1) [.Str [120]] h1⟩,
    ⟨h2, encode_repeated_invariants.2.1 9 [.Repeated []] h2⟩,
    encode_repeated_invariants.2.2 9⟩

/-! ### Claim C4: encoding of `Repeated` values with LEN elements -/

/-- Counterexample to C4 as stated: a `Message` element of a `Repeated`
is *not* encoded with its own tag and length varint.  Encoding
`Repeated [Message {1: Varint 1}]` at field 2 emits only the nested
message's bare field encoding `08 01`; the claim's per-element
tag+length+payload form would be `12 02 08 01`. -/
theorem repeated_message_element_has_no_tag :
    ProtoData.encode_to (.Repeated [.Message [(1, .Varint 1)]]) 2 = .ok [8, 1]
    ∧ ([8, 1] : List Nat) ≠ [18, 2, 8, 1] := by
  constructor
  · simp [ProtoData.encode_to, encodeElems, ProtoData.encode_repeated_to,
      mapEncodeTo, tagValue, write_uvarint, ProtoData.discr, ProtoData.is_repeated,
      ProtoData.wire_type]
  · simp

/-- The amended claim's promised output for a `Repeated` of `Message`
elements: each element contributes only its field map's bare encoding —
no per-element tag, no length varint — and the results are concatenated
(the first failure propagates). -/
def bareMessagesEncode : List (List (Nat × ProtoData)) → Except EncodeError (List Nat)
  | [] => .ok []
  | m :: rest =>
    match mapEncodeTo m with
    | .error e => .error e
    | .ok b =>
      match bareMessagesEncode rest with
      | .error e => .error e
      | .ok bs => .ok (b ++ bs)

/-- The element loop on a homogeneous all-`Bytes` list (with the
discriminant tracker unset or already set to `Bytes`): every element gets
its own tag, length varint and payload. -/
theorem encodeElems_map_bytes (field : Nat) (bs : List (List Nat)) (t : Option Nat)
    (ht : t = none ∨ t = some 3) :
    encodeElems (bs.map ProtoData.Bytes) field t =
      .ok ((bs.map fun b =>
        write_uvarint (tagValue field 2) ++ write_uvarint b.length ++ b).flatten) := by
  induction bs generalizing t with
  | nil => rcases ht with rfl | rfl <;> simp [encodeElems]
  | cons b rest ih =>
    have hr := ih (some 3) (Or.inr rfl)
    rcases ht with rfl | rfl <;>
      simp [encodeElems, ProtoData.discr, ProtoData.is_repeated,
        ProtoData.encode_repeated_to, hr]

/-- The element loop on a homogeneous all-`Str` list: every element gets
its own tag, length varint and payload. -/
theorem encodeElems_map_strs (field : Nat) (ss : List (List Nat)) (t : Option Nat)
    (ht : t = none ∨ t = some 4) :
    encodeElems (ss.map ProtoData.Str) field t =
      .ok ((ss.map fun s =>
        write_uvarint (tagValue field 2) ++ write_uvarint s.length ++ s).flatten) := by
  induction ss generalizing t with
  | nil => rcases ht with rfl | rfl <;> simp [encodeElems]
  | cons s rest ih =>
    have hr := ih (some 4) (Or.inr rfl)
    rcases ht with rfl | rfl <;>
      simp [encodeElems, ProtoData.discr, ProtoData.is_repeated,
        ProtoData.encode_repeated_to, hr]

/-- The element loop on a homogeneous all-`Message` list: each element
contributes only its bare field-map encoding. -/
theorem encodeElems_map_messages (field : Nat) (ms : List (List (Nat × ProtoData)))
    (t : Option Nat) (ht : t = none ∨ t = some 6) :
    encodeElems (ms.map ProtoData.Message) field t = bareMessagesEncode ms := by
  induction ms generalizing t with
  | nil => rcases ht with rfl | rfl <;> simp [encodeElems, bareMessagesEncode]
  | cons m rest ih =>
    have hr := ih (some 6) (Or.inr rfl)
    cases h : mapEncodeTo m <;> cases hb : bareMessagesEncode rest <;>
      rcases ht with rfl | rfl <;>
        simp [encodeElems, bareMessagesEncode, ProtoData.discr,
          ProtoData.is_repeated, ProtoData.encode_repeated_to, h, hr, hb]

/-- C4 (amended).  When `encode_to` writes a `Repeated` whose first
element has wire type LEN, no single shared tag is written up front, and
every `Bytes` element and every `Str` element — for lists of any length —
is encoded independently with its own tag, its own length varint and its
payload, the per-element blocks simply concatenated; but every `Message`
element contributes only its field map's bare encoding, with no
per-element tag and no length varint. -/
theorem repeated_len_elements_encoding (field : Nat) :
    (∀ (b0 : List Nat) (bs : List (List Nat)),
      ProtoData.encode_to (.Repeated ((b0 :: bs).map ProtoData.Bytes)) field =
        .ok (((b0 :: bs).map fun b =>
          write_uvarint (tagValue field 2) ++ write_uvarint b.length ++ b).flatten))
    ∧ (∀ (s0 : List Nat) (ss : List (List Nat)),
      ProtoData.encode_to (.Repeated ((s0 :: ss).map ProtoData.Str)) field =
        .ok (((s0 :: ss).map fun s =>
          write_uvarint (tagValue field 2) ++ write_uvarint s.length ++ s).flatten))
    ∧ (∀ (m0 : List (Nat × ProtoData)) (ms : List (List (Nat × ProtoData))),
      ProtoData.encode_to (.Repeated ((m0 :: ms).map ProtoData.Message)) field =
        bareMessagesEncode (m0 :: ms)) := by
  refine ⟨?_, ?_, ?_⟩
  · intro b0 bs
    have h := encodeElems_map_bytes field (b0 :: bs) none (Or.inl rfl)
    rw [List.map_cons] at h ⊢
    simp only [ProtoData.encode_to, ProtoData.wire_type]
    rw [h]
    simp
  · intro s0 ss
    have h := encodeElems_map_strs field (s0 :: ss) none (Or.inl rfl)
    rw [List.map_cons] at h ⊢
    simp only [ProtoData.encode_to, ProtoData.wire_type]
    rw [h]
    simp
  · intro m0 ms
    have h := encodeElems_map_messages field (m0 :: ms) none (Or.inl rfl)
    rw [List.map_cons] at h ⊢
    simp only [ProtoData.encode_to, ProtoData.wire_type]
    rw [h]
    cases hb : bareMessagesEncode (m0 :: ms) <;> simp

end ProtobufLite
